import Mathlib

set_option maxRecDepth 8000

/-!
Shallow embedding of `internal/testutils/files.go` (package `testutils`).

The file models the golden-tree comparison helper
`CompareTreesWithFiltering(t, p, goldPath, update)` together with its
internal algorithms `treeContent`, `addEmptyMarker` and `ignoreDconfDB`,
over a purely functional file-system tree.

Modelling conventions:
- A file system entry is an `FsNode`: a regular file with its byte content
  (as a `String`, matching `string(d)` in the source), or a directory with
  a list of named children (`Entries`). Symbolic links and I/O errors are
  not modelled, except for the per-file read failure inside
  `ignoreDconfDB`, which the source handles specially and which is
  modelled separately (`ignoreDconfDBFallible`).
- Absolute paths are lists of components (`List String`); `filepath.Dir`
  is `List.dropLast`, `filepath.Base` is `List.getLastD`.
- `filepath.Walk`/`filepath.WalkDir` visit a node before its children and
  the children in lexical order; the model walks children in stored
  order, so concrete trees in theorems list entries in lexical order
  (for the map-level properties proved here the order is irrelevant).
- The snapshot key `strings.TrimPrefix(path, dir)` is `""` for the walk
  root and `"/" ++ name ++ ...` for descendants, which is what the model
  builds directly (`joinKey`).
-/

namespace AdsysFiles

/-- Go `strings.HasPrefix`/`bytes.HasPrefix` on character lists:
`listStarts pat s` holds when `s` starts with `pat`. -/
def listStarts : List Char → List Char → Bool
  | [], _ => true
  | _ :: _, [] => false
  | a :: as, b :: bs => if a = b then listStarts as bs else false

/-- Go `bytes.HasPrefix d pre` (argument order: pattern first). -/
def hasPre (pre s : String) : Bool := listStarts pre.data s.data

/-- Go `strings.HasSuffix s suf`. -/
def strEnds (s suf : String) : Bool := listStarts suf.data.reverse s.data.reverse

/-- Go `strings.TrimSuffix s suf`: drops the suffix when present,
returns `s` unchanged otherwise. -/
def trimSuf (s suf : String) : String :=
  if strEnds s suf then String.mk (s.data.take (s.data.length - suf.data.length)) else s

/-- The relative snapshot key for a path given by its components:
`joinKey [a, b] = "/a/b"`, `joinKey [] = ""`.  This is what
`strings.TrimPrefix(path, dir)` computes for a walked path under `dir`. -/
def joinKey : List String → String
  | [] => ""
  | c :: cs => "/" ++ c ++ joinKey cs

mutual
inductive FsNode : Type where
  | file : String → FsNode
  | dir : Entries → FsNode
inductive Entries : Type where
  | nil : Entries
  | cons : String → FsNode → Entries → Entries
end

/-- First entry with the given name (directory lookup). -/
def Entries.findEntry : Entries → String → Option FsNode
  | .nil, _ => none
  | .cons nm c rest, q => if nm = q then some c else Entries.findEntry rest q

/-- Names of the entries of a directory, in order. -/
def Entries.names : Entries → List String
  | .nil => []
  | .cons nm _ rest => nm :: Entries.names rest

/-- Resolve a relative path (component list) inside a tree. Models
`os.Stat`/file resolution under the tree root. -/
def lookupPath : FsNode → List String → Option FsNode
  | t, [] => some t
  | .file _, _ :: _ => none
  | .dir es, c :: cs =>
      match Entries.findEntry es c with
      | some child => lookupPath child cs
      | none => none

/-- `const fileForEmptyDir = ".empty"` (files.go line 35). -/
def fileForEmptyDir : String := ".empty"

/-- The binary-DB magic prefix `"GVariant"` used at files.go lines 64
and 190. -/
def gvariantMagic : String := "GVariant"

/-- The guard `ignoreHeaders != nil && bytes.HasPrefix(d, ignoreHeaders)`
from files.go line 163. -/
def ignoredHeader : Option String → String → Bool
  | none, _ => false
  | some h, d => hasPre h d

mutual
/-- `treeContent` (files.go lines 141-176) restricted to the subtree
rooted at a node walked at relative key `rel` whose base name is `nm`:
skips any entry whose base name is `fileForEmptyDir`; for files, skips
the entry when the ignore header is a prefix of its content, otherwise
records `(rel, content)`; for directories records `(rel, "")` and then
walks the children. -/
def treeContentNode (ign : Option String) (rel nm : String) : FsNode → List (String × String)
  | .file d =>
      if nm = fileForEmptyDir then []
      else if ignoredHeader ign d then []
      else [(rel, d)]
  | .dir es =>
      (if nm = fileForEmptyDir then [] else [(rel, "")]) ++ treeContentEntries ign rel es
/-- The walk of `treeContent` over the children of a directory whose
relative key is `rel` (each child is walked at `rel ++ "/" ++ name`). -/
def treeContentEntries (ign : Option String) (rel : String) : Entries → List (String × String)
  | .nil => []
  | .cons nm child rest =>
      treeContentNode ign (rel ++ "/" ++ nm) nm child ++ treeContentEntries ign rel rest
end

/-- `ignoreDconfDB` (files.go lines 179-195) in the error-free model:
directory entries are skipped, and a file name is put on the ignore list
exactly when its content starts with `"GVariant"`. Read errors are
modelled separately by `ignoreDconfDBFallible`. -/
def ignoreDconfDB : Entries → List String
  | .nil => []
  | .cons _ (.dir _) rest => ignoreDconfDB rest
  | .cons nm (.file d) rest =>
      if hasPre gvariantMagic d then nm :: ignoreDconfDB rest else ignoreDconfDB rest

mutual
/-- `shutil.CopyTree(src, dst, {Symlinks: true, Ignore: ignoreDconfDB,
CopyFunction: shutil.Copy})` as invoked at files.go lines 53-57: per
directory, the ignore callback is evaluated on the entry list, entries
whose name is on the resulting list are skipped, files are copied
byte-for-byte and directories are copied recursively. -/
def copyNode : FsNode → FsNode
  | .file d => .file d
  | .dir es => .dir (copyFiltered (ignoreDconfDB es) es)
/-- Copy of a directory's entries given the already-computed ignore
list for that directory. -/
def copyFiltered (ign : List String) : Entries → Entries
  | .nil => .nil
  | .cons nm child rest =>
      if nm ∈ ign then copyFiltered ign rest
      else .cons nm (copyNode child) (copyFiltered ign rest)
end

/-- The copy of one directory level: ignore list computed from the
entries, then the filtered copy. -/
def copyDir (es : Entries) : Entries := copyFiltered (ignoreDconfDB es) es

/-- Whether the ignore callback excludes an entry with this node: a
regular file whose content starts with the binary-DB magic
(specification device; equals name-membership in `ignoreDconfDB` on
directories with distinct entry names, see `copyNode_eq_P`). -/
def isBinEntry : FsNode → Bool
  | .file d => hasPre gvariantMagic d
  | .dir _ => false

mutual
/-- Entry-local reformulation of the filtered copy: an entry is dropped
exactly when `isBinEntry` holds of its own node (specification device,
proved equal to `copyNode` on well-formed trees). -/
def copyNodeP : FsNode → FsNode
  | .file d => .file d
  | .dir es => .dir (copyEntriesP es)
/-- Entries part of `copyNodeP`. -/
def copyEntriesP : Entries → Entries
  | .nil => .nil
  | .cons nm c rest =>
      if isBinEntry c then copyEntriesP rest
      else .cons nm (copyNodeP c) (copyEntriesP rest)
end

/-- Membership of a named entry in a directory's entry list. -/
def entMem (nm : String) (c : FsNode) : Entries → Prop
  | .nil => False
  | .cons nm' c' rest => (nm = nm' ∧ c = c') ∨ entMem nm c rest

mutual
/-- `addEmptyMarker` (files.go lines 112-137): walk every directory; a
directory with zero entries receives the single marker file
`fileForEmptyDir` with empty content (`os.Create`). -/
def addEmptyNode : FsNode → FsNode
  | .file d => .file d
  | .dir .nil => .dir (.cons fileForEmptyDir (.file "") .nil)
  | .dir (.cons nm c rest) => .dir (addEmptyEntries (.cons nm c rest))
/-- The walk of `addEmptyMarker` over the children of a non-empty
directory. -/
def addEmptyEntries : Entries → Entries
  | .nil => .nil
  | .cons nm c rest => .cons nm (addEmptyNode c) (addEmptyEntries rest)
end

/-- Resolve an absolute path `q` against the tree `a` mounted at the
absolute path `p`: when `p` is a prefix of `q`, resolve the remaining
components inside `a`; otherwise the path is outside the modelled tree
and does not exist. -/
def lookupAbs : List String → FsNode → List String → Option FsNode
  | [], a, q => lookupPath a q
  | _ :: _, _, [] => none
  | p₀ :: ps, a, q₀ :: qs => if p₀ = q₀ then lookupAbs ps a qs else none

/-- `os.Stat` success on an absolute path under the modelled root. -/
def statAbs (p : List String) (a : FsNode) (q : List String) : Bool :=
  (lookupAbs p a q).isSome

mutual
/-- The `filepath.WalkDir` loop of files.go lines 87-99: the accumulator
`acc` is the current `dconfDir`; visiting a directory whose base name is
`"db"` replaces it with the directory's parent; children are visited
after their parent, in order, so the last visited match wins. -/
def fddNode (acc path : List String) : FsNode → List String
  | .file _ => acc
  | .dir es =>
      fddEntries (if path.getLastD "" = "db" then path.dropLast else acc) path es
/-- The walk of the `dconfDir` search over the children of a directory. -/
def fddEntries (acc path : List String) : Entries → List String
  | .nil => acc
  | .cons nm child rest => fddEntries (fddNode acc (path ++ [nm]) child) path rest
end

/-- The `dconfDir` computed by files.go lines 86-99: the walk starts at
the actual path `p` with accumulator `p` (the fallback when no `db`
directory exists). -/
def findDconfDir (p : List String) (a : FsNode) : List String := fddNode p p a

mutual
/-- Absolute paths, in walk order, of the directories named `"db"`
under the walk root (specification device used to characterise
`findDconfDir`). -/
def dbDirsNode (path : List String) : FsNode → List (List String)
  | .file _ => []
  | .dir es =>
      (if path.getLastD "" = "db" then [path] else []) ++ dbDirsEntries path es
/-- The walk of `dbDirsNode` over the children of a directory. -/
def dbDirsEntries (path : List String) : Entries → List (List String)
  | .nil => []
  | .cons nm child rest => dbDirsNode (path ++ [nm]) child ++ dbDirsEntries path rest
end

/-- The names of the entries of a directory matching the glob pattern
`*.d` (a name matches exactly when it ends in `".d"`; Go's
`filepath.Match` star does not cross separators and does match a leading
dot). -/
def dNames : Entries → List String
  | .nil => []
  | .cons nm _ rest => if strEnds nm ".d" then nm :: dNames rest else dNames rest

/-- `filepath.Glob(filepath.Join(dconfDir, "db", "*.d"))` (files.go line
102): the matching entry names of the directory at `dconfDir ++ ["db"]`,
or no matches when that path does not resolve to a directory. -/
def globDconfDB (p : List String) (a : FsNode) (dconfDir : List String) : List String :=
  match lookupAbs p a (dconfDir ++ ["db"]) with
  | some (.dir es) => dNames es
  | _ => []

/-- The loop of files.go lines 104-107: for each glob match, stat
`strings.TrimSuffix(db, ".db")`; the names whose stat fails are the
soft assertion failures "Binary version of dconf DB should exists". -/
def dbCheckFailures (p : List String) (a : FsNode) (dconfDir : List String) : List String :=
  (globDconfDB p a dconfDir).filter
    (fun nm => !statAbs p a (dconfDir ++ ["db", trimSuf nm ".db"]))

/-- The two directory roots `CompareTreesWithFiltering` operates on:
`actual` is the tree at `p`, `golden` the tree at `goldPath`; `none`
models a path that does not exist. The two paths are assumed distinct
(callers pass a temporary output directory and a testdata directory). -/
structure FsState where
  actual : Option FsNode
  golden : Option FsNode

/-- Observable outcome of one `CompareTreesWithFiltering` call:
the golden tree left on disk, whether a `require`/`Fatalf` aborted the
test (fatal), whether the snapshot comparison step was reached, the two
snapshots handed to `assert.Equal` (`none` models the Go `nil` map of a
nonexistent root, which `assert.Equal` distinguishes from any non-nil
map), and the soft failures of the dconf-DB cross-check. -/
structure CmpResult where
  goldenAfter : Option FsNode
  fatal : Bool
  comparisonRan : Bool
  got : Option (List (String × String))
  gold : Option (List (String × String))
  dbFailures : List String

/-- The comparison and cross-check part of `CompareTreesWithFiltering`
(files.go lines 61-107), run against the (possibly just regenerated)
golden tree: build the actual snapshot with the `"GVariant"` content
filter and the golden snapshot with no filter, compare, and when the
actual path exists run the dconf cross-check. -/
def runCompare (p : List String) (goldLast : String) (actual golden : Option FsNode) :
    CmpResult :=
  let got := actual.map (fun a => treeContentNode (some gvariantMagic) "" (p.getLastD "") a)
  let gold := golden.map (fun g => treeContentNode none "" goldLast g)
  match actual with
  | none =>
      { goldenAfter := golden, fatal := false, comparisonRan := true,
        got := got, gold := gold, dbFailures := [] }
  | some a =>
      { goldenAfter := golden, fatal := false, comparisonRan := true,
        got := got, gold := gold, dbFailures := dbCheckFailures p a (findDconfDir p a) }

/-- `CompareTreesWithFiltering(t, p, goldPath, update)` (files.go lines
39-108). `p` is the absolute actual path as a component list (its last
component is the base name used by the walks), `goldLast` the base name
of the golden path. Update mode first removes the golden tree
(`os.RemoveAll`), returns early when the actual path does not exist,
aborts fatally when it is not a directory (`shutil.CopyTree` fails),
and otherwise regenerates the golden tree via the filtered copy plus
`addEmptyMarker`. -/
def compareTreesModel (p : List String) (goldLast : String) (st : FsState) (update : Bool) :
    CmpResult :=
  match update, st.actual with
  | true, none =>
      { goldenAfter := none, fatal := false, comparisonRan := false,
        got := none, gold := none, dbFailures := [] }
  | true, some (.file _) =>
      { goldenAfter := none, fatal := true, comparisonRan := false,
        got := none, gold := none, dbFailures := [] }
  | true, some (.dir es) =>
      runCompare p goldLast (some (.dir es)) (some (addEmptyNode (.dir (copyDir es))))
  | false, _ => runCompare p goldLast st.actual st.golden

/-- First-match lookup in a snapshot (Go map indexing; keys produced by
`treeContent` on a real file system are unique). -/
def snapLookup : List (String × String) → String → Option String
  | [], _ => none
  | (k, v) :: rest, q => if k = q then some v else snapLookup rest q

/-- The keys of a snapshot. -/
def snapKeys (l : List (String × String)) : List String := l.map Prod.fst

/-- Equality of two snapshots as mappings from path to content. -/
def snapEquiv (a b : List (String × String)) : Prop :=
  ∀ k, snapLookup a k = snapLookup b k

/-- `assert.Equal` on the two (possibly nil) snapshot maps: a Go nil map
is only equal to a nil map (`reflect.DeepEqual`), two present maps are
compared as mappings. -/
def optSnapEquiv : Option (List (String × String)) → Option (List (String × String)) → Prop
  | none, none => True
  | some a, some b => snapEquiv a b
  | _, _ => False

/-- A call succeeds when no `require`/`Fatalf` fired, the snapshot
assertion holds, and the dconf cross-check reported no failure. -/
def CmpResult.ok (r : CmpResult) : Prop :=
  r.fatal = false ∧ optSnapEquiv r.gold r.got ∧ r.dbFailures = []

/-- A directory entry as seen by `ignoreDconfDB`, with the outcome of
`os.ReadFile` made explicit so the read-failure path of files.go lines
185-188 is expressible. -/
structure DirEntry where
  name : String
  isDir : Bool
  readResult : Except String String

/-- `ignoreDconfDB` (files.go lines 179-195) with fallible reads:
directories are skipped, a failed read `continue`s (the file is treated
as not a binary DB), and a successful read puts the name on the list
exactly when the content starts with `"GVariant"`. -/
def ignoreDconfDBFallible : List DirEntry → List String
  | [] => []
  | e :: rest =>
      if e.isDir then ignoreDconfDBFallible rest
      else
        match e.readResult with
        | .error _ => ignoreDconfDBFallible rest
        | .ok d =>
            if hasPre gvariantMagic d then e.name :: ignoreDconfDBFallible rest
            else ignoreDconfDBFallible rest

/-- A legal file-system name: nonempty and without a path separator. -/
def goodName (nm : String) : Bool := (nm != "") && nm.data.all (fun c => c != '/')

/-- Pairwise-distinct strings (names of one directory are unique on a
real file system). -/
def allDiff : List String → Bool
  | [] => true
  | a :: as => !(as.contains a) && allDiff as

mutual
/-- Well-formed tree: every directory has pairwise-distinct entry names
and every name is legal — always true of a tree read from a real file
system. -/
def wfNode : FsNode → Bool
  | .file _ => true
  | .dir es => allDiff (Entries.names es) && wfEntries es
/-- Well-formedness of a directory's entries. -/
def wfEntries : Entries → Bool
  | .nil => true
  | .cons nm c rest => goodName nm && wfNode c && wfEntries rest
end

/-- Well-formed relative path: every component is a legal name. -/
def wfComps (q : List String) : Bool := q.all goodName

mutual
/-- No file anywhere in the tree has content starting with the
`"GVariant"` magic. -/
def noGVarNode : FsNode → Bool
  | .file d => !(hasPre gvariantMagic d)
  | .dir es => noGVarEntries es
/-- `noGVarNode` over a directory's entries. -/
def noGVarEntries : Entries → Bool
  | .nil => true
  | .cons _ c rest => noGVarNode c && noGVarEntries rest
end

/-- What one walked entry contributes to a snapshot, as a function of
its base name and node (specification device): nothing for a marker
name, nothing for a header-filtered file, otherwise its content (empty
for a directory). -/
def entryKeyVal (ign : Option String) (nm : String) : FsNode → Option String
  | .file d =>
      if nm = fileForEmptyDir then none
      else if ignoredHeader ign d then none
      else some d
  | .dir _ => if nm = fileForEmptyDir then none else some ""

/-- The last `/`-separated segment of a snapshot key (the base name of
the walked path that produced it). -/
def lastSeg (s : String) : String :=
  String.mk ((s.data.reverse.takeWhile (fun c => c != '/')).reverse)

/-- Concrete actual tree for the dconf cross-check scenario: the
directory `db/sub.d` exists and the file `db/sub` does not. -/
def cexTreeC1 : FsNode := .dir (.cons "db" (.dir (.cons "sub.d" (.dir .nil) .nil)) .nil)

/-- Concrete actual tree with two directories named `db`: `a/x/db`
(depth 3, visited first) and `z/db` (depth 2, visited last). -/
def cexTreeC4 : FsNode :=
  .dir (.cons "a" (.dir (.cons "x" (.dir (.cons "db" (.dir .nil) .nil)) .nil))
    (.cons "z" (.dir (.cons "db" (.dir .nil) .nil)) .nil))

/-- Concrete tree holding one file whose content starts with the
`"GVariant"` magic. -/
def cexTreeC2 : FsNode := .dir (.cons "f" (.file "GVariantdata") .nil)

/-- Concrete entry list used to instantiate the round-trip law: one
binary DB file (excluded by the copy) and one regular file. -/
def wtEntriesC3 : Entries :=
  .cons "bin" (.file "GVariantzz") (.cons "f" (.file "hi") .nil)

/-! ## Theorems -/

/-- `List.getLastD` distributes over an append through the default. -/
theorem getLastD_app {α : Type _} (l₁ l₂ : List α) (d : α) :
    (l₁ ++ l₂).getLastD d = l₂.getLastD (l₁.getLastD d) := by
  rw [List.getLastD_eq_getLast?, List.getLastD_eq_getLast?, List.getLastD_eq_getLast?,
    List.getLast?_append]
  cases l₂.getLast? <;> simp [Option.or]

mutual
/-- The accumulator walk of the `dconfDir` search equals the parent of
the last `db` directory in walk order (default: the accumulator). -/
theorem fddNode_eq (acc path : List String) (t : FsNode) :
    fddNode acc path t = ((dbDirsNode path t).map List.dropLast).getLastD acc := by
  cases t with
  | file d => rfl
  | dir es =>
      rw [fddNode, dbDirsNode, List.map_append, getLastD_app,
        fddEntries_eq (if path.getLastD "" = "db" then path.dropLast else acc) path es]
      by_cases h : path.getLastD "" = "db"
      · rw [if_pos h, if_pos h]
        simp
      · rw [if_neg h, if_neg h]
        simp
/-- Entries version of `fddNode_eq`. -/
theorem fddEntries_eq (acc path : List String) (es : Entries) :
    fddEntries acc path es = ((dbDirsEntries path es).map List.dropLast).getLastD acc := by
  cases es with
  | nil => rfl
  | cons nm c rest =>
      rw [fddEntries, dbDirsEntries, List.map_append, getLastD_app,
        fddEntries_eq (fddNode acc (path ++ [nm]) c) path rest,
        fddNode_eq acc (path ++ [nm]) c]
end

/-- C4 counterexample: in `cexTreeC4` the deepest directory named `db`
is `p/a/x/db`, but the search returns the parent of `p/z/db`, the match
visited last by the walk — so the claim's "deepest" is wrong. -/
theorem c4_last_walk_match_not_deepest :
    dbDirsNode ["p"] cexTreeC4 = [["p", "a", "x", "db"], ["p", "z", "db"]]
      ∧ findDconfDir ["p"] cexTreeC4 = ["p", "z"] := by
  exact ⟨rfl, rfl⟩

/-- C4 (amended): the `dconfDir` search selects the parent of the
directory named exactly `db` that the walk of `actualPath` visits last
(children in order, a node before its children) — not necessarily the
deepest one — and yields `actualPath` itself when no `db` directory
exists (the `getLastD` default). -/
theorem c4_amended_dconf_search (p : List String) (a : FsNode) :
    findDconfDir p a = ((dbDirsNode p a).map List.dropLast).getLastD p :=
  fddNode_eq p p a

/-- C1 (code behaviour at the failing input): with an actual tree
holding the directory `db/sub.d` and no file `db/sub`, the cross-check
reports no soft failure at all: `strings.TrimSuffix(db, ".db")` never
strips anything from a glob match of `db/*.d` (such a path ends in `.d`,
never in `.db`), so the code stats the `.d` entry the glob just found. -/
theorem c1_crosscheck_reports_nothing :
    (compareTreesModel ["p"] "g" ⟨some cexTreeC1, none⟩ false).dbFailures = []
      ∧ lookupPath cexTreeC1 ["db", "sub"] = none
      ∧ lookupPath cexTreeC1 ["db", "sub.d"] = some (.dir .nil)
      ∧ trimSuf "sub.d" ".db" = "sub.d" := by
  exact ⟨rfl, rfl, rfl, rfl⟩

/-- C7 counterexample: an update-mode call whose actual path does not
exist returns before the comparison step — the comparison does not run
on every call. -/
theorem c7_update_without_actual_skips_comparison :
    (compareTreesModel ["p"] "g" { actual := none, golden := some (.dir .nil) }
      true).comparisonRan = false := rfl

/-- C7 (amended): the snapshot comparison runs on every call except an
update-mode call whose actual path does not exist (early return at
files.go line 49) or is not a directory (fatal `CopyTree` failure); in
particular it always runs when `update` is false. -/
theorem c7_amended_comparison_always_runs (p : List String) (gl : String)
    (st : FsState) (u : Bool) :
    (compareTreesModel p gl st u).comparisonRan = true ↔
      ¬(u = true ∧ (st.actual = none ∨ ∃ c, st.actual = some (.file c))) := by
  rcases st with ⟨a, g⟩
  cases u with
  | false =>
      rcases a with _ | t <;> simp [compareTreesModel, runCompare]
  | true =>
      rcases a with _ | t
      · simp [compareTreesModel]
      · cases t <;> simp [compareTreesModel, runCompare]

/-- C10 counterexample: a directory whose own base name is the marker
name `.empty` is skipped by the walk callback, so its snapshot has no
`""` key and can even be empty. -/
theorem c10_root_named_empty_has_no_root_key :
    treeContentNode none "" fileForEmptyDir (.dir .nil) = []
      ∧ snapLookup (treeContentNode none "" fileForEmptyDir (.dir .nil)) "" = none := by
  exact ⟨rfl, rfl⟩

/-- C10 (amended): for every existing directory whose base name is not
the marker name `.empty`, the snapshot maps the key `""` (the root path
with the root prefix trimmed) to `""`, is non-empty, and is never equal
to the nil snapshot of a nonexistent path. -/
theorem c10_amended_root_key (ign : Option String) (nm : String) (es : Entries)
    (h : nm ≠ fileForEmptyDir) :
    snapLookup (treeContentNode ign "" nm (.dir es)) "" = some ""
      ∧ treeContentNode ign "" nm (.dir es) ≠ []
      ∧ ¬ optSnapEquiv (some (treeContentNode ign "" nm (.dir es))) none := by
  have he : treeContentNode ign "" nm (.dir es) = ("", "") :: treeContentEntries ign "" es := by
    simp [treeContentNode, h]
  rw [he]
  refine ⟨by simp [snapLookup], by simp, ?_⟩
  simp [optSnapEquiv]

/-- Closed instance of `c10_amended_root_key` at the root name `"p"`
and an empty directory. -/
theorem c10_amended_root_key_witness :
    ("p" ≠ fileForEmptyDir)
      ∧ (snapLookup (treeContentNode none "" "p" (.dir .nil)) "" = some ""
        ∧ treeContentNode none "" "p" (.dir .nil) ≠ []
        ∧ ¬ optSnapEquiv (some (treeContentNode none "" "p" (.dir .nil))) none) :=
  ⟨by decide, c10_amended_root_key none "p" .nil (by decide)⟩

/-- Unfolding of `allDiff` on a cons cell into propositional form. -/
theorem allDiff_cons_iff {a : String} {as : List String} :
    allDiff (a :: as) = true ↔ a ∉ as ∧ allDiff as = true := by
  simp [allDiff, List.contains]

/-- The fallible ignore list only holds names of the given entries. -/
theorem ignoreFallible_sub (es : List DirEntry) (nm : String)
    (h : nm ∈ ignoreDconfDBFallible es) : nm ∈ es.map DirEntry.name := by
  induction es with
  | nil => simp [ignoreDconfDBFallible] at h
  | cons e rest ih =>
      simp only [ignoreDconfDBFallible] at h
      simp only [List.map_cons, List.mem_cons]
      split at h
      · exact Or.inr (ih h)
      · split at h
        · exact Or.inr (ih h)
        · split at h
          · rcases List.mem_cons.mp h with rfl | hm
            · exact Or.inl rfl
            · exact Or.inr (ih hm)
          · exact Or.inr (ih h)

/-- C8: during the update-mode copy, a directory entry whose read fails
is treated as "not a binary DB": `ignoreDconfDB` `continue`s past it, so
its name never reaches the ignore list handed to `shutil.CopyTree` and
the file is copied; the error is not propagated. -/
theorem c8_read_failure_is_not_ignored (es : List DirEntry) (e : DirEntry) (msg : String)
    (hf : e.isDir = false) (he : e.readResult = Except.error msg) :
    allDiff (es.map DirEntry.name) = true → e ∈ es →
      e.name ∉ ignoreDconfDBFallible es := by
  induction es with
  | nil => intro _ hm; exact absurd hm (List.not_mem_nil e)
  | cons a rest ih =>
      intro hd hm hmem
      obtain ⟨hna, hdr⟩ := allDiff_cons_iff.mp (by simpa using hd)
      simp only [ignoreDconfDBFallible] at hmem
      rcases List.mem_cons.mp hm with rfl | hm'
      · rw [hf] at hmem
        simp only [Bool.false_eq_true, if_false] at hmem
        rw [he] at hmem
        exact hna (ignoreFallible_sub rest e.name hmem)
      · split at hmem
        · exact ih hdr hm' hmem
        · split at hmem
          · exact ih hdr hm' hmem
          · split at hmem
            · rcases List.mem_cons.mp hmem with hEq | hmem'
              · exact hna (hEq ▸ List.mem_map_of_mem DirEntry.name hm')
              · exact ih hdr hm' hmem'
            · exact ih hdr hm' hmem

/-- Closed instance of `c8_read_failure_is_not_ignored`: a failed read
next to a genuine binary DB; only the binary DB is ignored. -/
theorem c8_read_failure_witness :
    ((⟨"a", false, Except.error "boom"⟩ : DirEntry).isDir = false)
      ∧ ((⟨"a", false, Except.error "boom"⟩ : DirEntry).readResult = Except.error "boom")
      ∧ allDiff (([⟨"a", false, Except.error "boom"⟩,
          ⟨"b", false, Except.ok "GVariantxx"⟩] : List DirEntry).map DirEntry.name) = true
      ∧ (⟨"a", false, Except.error "boom"⟩ : DirEntry) ∈
          ([⟨"a", false, Except.error "boom"⟩, ⟨"b", false, Except.ok "GVariantxx"⟩] : List DirEntry)
      ∧ "a" ∉ ignoreDconfDBFallible
          ([⟨"a", false, Except.error "boom"⟩, ⟨"b", false, Except.ok "GVariantxx"⟩] : List DirEntry) :=
  ⟨rfl, rfl, by decide, List.mem_cons_self _ _,
    c8_read_failure_is_not_ignored _ _ "boom" rfl rfl (by decide) (List.mem_cons_self _ _)⟩

/-- Every character of a legal name differs from the separator. -/
theorem goodName_no_slash {nm : String} (h : goodName nm = true) :
    ∀ c ∈ nm.data, (c != '/') = true := by
  simp only [goodName, Bool.and_eq_true, List.all_eq_true] at h
  exact h.2

/-- The last segment of `r ++ "/" ++ nm` is `nm` when `nm` is a legal
name. -/
theorem lastSeg_app {nm : String} (h : goodName nm = true) (r : String) :
    lastSeg (r ++ "/" ++ nm) = nm := by
  have hd : (r ++ "/" ++ nm).data = (r.data ++ ['/']) ++ nm.data := by
    simp
  have hrev : (r ++ "/" ++ nm).data.reverse = nm.data.reverse ++ '/' :: r.data.reverse := by
    rw [hd, List.reverse_append, List.reverse_append]
    simp
  rw [lastSeg, hrev, List.takeWhile_append_of_pos]
  · simp [List.takeWhile_cons]
  · intro c hc
    exact goodName_no_slash h c (List.mem_reverse.mp hc)

mutual
/-- Shape of the keys produced by `treeContentNode`: the node's own key
`rel` (only when its base name is not the marker name), or a key ending
in a `/`-separated legal, non-marker entry name. -/
theorem keysShapeNode (ign : Option String) (rel nm : String) (t : FsNode)
    (hwf : wfNode t = true) :
    ∀ k ∈ snapKeys (treeContentNode ign rel nm t),
      (nm ≠ fileForEmptyDir ∧ k = rel)
        ∨ ∃ r nm', goodName nm' = true ∧ nm' ≠ fileForEmptyDir ∧ k = r ++ "/" ++ nm' := by
  cases t with
  | file d =>
      intro k hk
      by_cases h1 : nm = fileForEmptyDir
      · simp only [treeContentNode, if_pos h1, snapKeys] at hk
        simp at hk
      · simp only [treeContentNode, if_neg h1] at hk
        by_cases h2 : ignoredHeader ign d = true
        · rw [if_pos h2] at hk
          simp [snapKeys] at hk
        · rw [if_neg h2] at hk
          simp only [snapKeys, List.map_cons, List.map_nil, List.mem_singleton] at hk
          exact Or.inl ⟨h1, hk⟩
  | dir es =>
      intro k hk
      have hwfe : wfEntries es = true := by
        simp only [wfNode, Bool.and_eq_true] at hwf
        exact hwf.2
      simp only [treeContentNode, snapKeys, List.map_append, List.mem_append] at hk
      cases hk with
      | inl h =>
          by_cases h1 : nm = fileForEmptyDir
          · rw [if_pos h1] at h
            simp at h
          · rw [if_neg h1] at h
            simp only [List.map_cons, List.map_nil, List.mem_singleton] at h
            exact Or.inl ⟨h1, h⟩
      | inr h => exact Or.inr (keysShapeEntries ign rel es hwfe k h)
/-- Entries version of `keysShapeNode`: every key produced below a
directory ends in a `/`-separated legal, non-marker entry name. -/
theorem keysShapeEntries (ign : Option String) (rel : String) (es : Entries)
    (hwf : wfEntries es = true) :
    ∀ k ∈ snapKeys (treeContentEntries ign rel es),
      ∃ r nm', goodName nm' = true ∧ nm' ≠ fileForEmptyDir ∧ k = r ++ "/" ++ nm' := by
  cases es with
  | nil =>
      intro k hk
      simp [treeContentEntries, snapKeys] at hk
  | cons nm c rest =>
      intro k hk
      have h3 : goodName nm = true ∧ wfNode c = true ∧ wfEntries rest = true := by
        simpa [wfEntries, Bool.and_eq_true, and_assoc] using hwf
      simp only [treeContentEntries, snapKeys, List.map_append, List.mem_append] at hk
      cases hk with
      | inl h =>
          rcases keysShapeNode ign (rel ++ "/" ++ nm) nm c h3.2.1 k h with
            ⟨hne, hke⟩ | ⟨r, nm', h1, h2, hke⟩
          · exact ⟨rel, nm, h3.1, hne, hke⟩
          · exact ⟨r, nm', h1, h2, hke⟩
      | inr h => exact keysShapeEntries ign rel rest h3.2.2 k h
end

/-- C6: a snapshot built by `treeContent` never keys the sentinel
marker: for any well-formed input tree (any root name, any ignore-header
setting) no key's base name is `.empty` — the walk callback returns
before recording any path whose base is the marker name. -/
theorem c6_snapshot_never_keys_marker (ign : Option String) (nm₀ : String) (t : FsNode)
    (hwf : wfNode t = true) :
    ∀ k ∈ snapKeys (treeContentNode ign "" nm₀ t), lastSeg k ≠ fileForEmptyDir := by
  intro k hk
  rcases keysShapeNode ign "" nm₀ t hwf k hk with ⟨-, rfl⟩ | ⟨r, nm', h1, h2, rfl⟩
  · decide
  · rw [lastSeg_app h1]
    exact h2

/-- Closed instance of `c6_snapshot_never_keys_marker` on a tree that
physically contains a marker file next to a regular file. -/
theorem c6_snapshot_never_keys_marker_witness :
    (wfNode (.dir (.cons ".empty" (.file "x") (.cons "a" (.file "y") .nil))) = true)
      ∧ ∀ k ∈ snapKeys (treeContentNode none ""
          "root" (.dir (.cons ".empty" (.file "x") (.cons "a" (.file "y") .nil)))),
        lastSeg k ≠ fileForEmptyDir :=
  ⟨by decide, c6_snapshot_never_keys_marker none "root" _ (by decide)⟩

/-- C2 counterexample: comparing a tree that contains a `GVariant`
file to itself fails — the actual snapshot filters the file out while
the golden snapshot of the same directory keeps it. -/
theorem c2_identity_fails_on_gvariant_file :
    ¬ (compareTreesModel ["p"] "p" ⟨some cexTreeC2, some cexTreeC2⟩ false).ok := by
  intro h
  obtain ⟨-, hs, -⟩ := h
  have hs2 : snapEquiv [("", ""), ("/f", "GVariantdata")] [("", "")] := hs
  exact absurd (hs2 "/f") (by decide)

/-- Head decomposition of `listStarts` on two cons cells. -/
theorem listStarts_cons {a b : Char} {as bs : List Char}
    (h : listStarts (a :: as) (b :: bs) = true) : a = b ∧ listStarts as bs = true := by
  simp only [listStarts] at h
  split at h
  · exact ⟨by assumption, h⟩
  · exact absurd h (by simp)

/-- A name ending in `".d"` does not end in `".db"` (the last characters
differ), so the cross-check's suffix trim never fires. -/
theorem strEnds_d_not_db {nm : String} (h : strEnds nm ".d" = true) :
    strEnds nm ".db" = false := by
  unfold strEnds at h ⊢
  rw [show (".d" : String).data.reverse = ['d', '.'] from rfl] at h
  rw [show (".db" : String).data.reverse = ['b', 'd', '.'] from rfl]
  cases hrev : nm.data.reverse with
  | nil => rw [hrev] at h; exact absurd h (by simp [listStarts])
  | cons c cs =>
      rw [hrev] at h
      obtain ⟨hc, -⟩ := listStarts_cons h
      have hbc : ¬ (('b' : Char) = c) := by rw [← hc]; decide
      simp only [listStarts, if_neg hbc]

/-- `strings.TrimSuffix(db, ".db")` is the identity on every glob match
of `*.d`. -/
theorem trimSuf_id_of_d {nm : String} (h : strEnds nm ".d" = true) :
    trimSuf nm ".db" = nm := by
  unfold trimSuf
  rw [strEnds_d_not_db h]
  simp

/-- A glob match is an existing entry of the `db` directory whose name
ends in `".d"`. -/
theorem dNames_mem (es : Entries) (nm : String) (h : nm ∈ dNames es) :
    strEnds nm ".d" = true ∧ (Entries.findEntry es nm).isSome = true := by
  cases es with
  | nil => simp [dNames] at h
  | cons nm' c rest =>
      simp only [dNames] at h
      by_cases hd : strEnds nm' ".d" = true
      · rw [if_pos hd] at h
        rcases List.mem_cons.mp h with rfl | hm
        · exact ⟨hd, by simp [Entries.findEntry]⟩
        · obtain ⟨h1, h2⟩ := dNames_mem rest nm hm
          refine ⟨h1, ?_⟩
          simp only [Entries.findEntry]
          split
          · simp
          · exact h2
      · rw [if_neg hd] at h
        obtain ⟨h1, h2⟩ := dNames_mem rest nm h
        refine ⟨h1, ?_⟩
        simp only [Entries.findEntry]
        split
        · simp
        · exact h2

/-- Extending a resolved directory path by one of its entries resolves
to that entry. -/
theorem lookupPath_app_single (a : FsNode) (r : List String) (es : Entries)
    (h : lookupPath a r = some (.dir es)) (nm : String) (c : FsNode)
    (hf : Entries.findEntry es nm = some c) :
    lookupPath a (r ++ [nm]) = some c := by
  induction r generalizing a with
  | nil =>
      simp only [lookupPath] at h
      obtain rfl := Option.some.inj h
      simp [lookupPath, hf]
  | cons x r' ih =>
      cases a with
      | file d => simp [lookupPath] at h
      | dir es₀ =>
          simp only [List.cons_append, lookupPath] at h ⊢
          cases hfe : Entries.findEntry es₀ x with
          | none => rw [hfe] at h; simp at h
          | some child =>
              rw [hfe] at h
              exact ih child h

/-- Absolute-path version of `lookupPath_app_single`. -/
theorem lookupAbs_app_single (p : List String) (a : FsNode) (q : List String) (es : Entries)
    (h : lookupAbs p a q = some (.dir es)) (nm : String) (c : FsNode)
    (hf : Entries.findEntry es nm = some c) :
    lookupAbs p a (q ++ [nm]) = some c := by
  induction p generalizing q with
  | nil => exact lookupPath_app_single a q es h nm c hf
  | cons p₀ ps ih =>
      cases q with
      | nil => simp [lookupAbs] at h
      | cons q₀ qs =>
          simp only [lookupAbs, List.cons_append] at h ⊢
          by_cases hpq : p₀ = q₀
          · rw [if_pos hpq] at h ⊢
            exact ih qs h
          · rw [if_neg hpq] at h
            simp at h

/-- The dconf cross-check can never report a failure, whatever the
config root: every glob match ends in `".d"`, the `".db"` trim leaves it
unchanged, and the resulting stat targets the very entry the glob just
found. -/
theorem dbCheckFailures_eq_nil (p : List String) (a : FsNode) (dd : List String) :
    dbCheckFailures p a dd = [] := by
  rw [dbCheckFailures, List.filter_eq_nil_iff]
  intro nm hnm
  simp only [globDconfDB] at hnm
  cases hl : lookupAbs p a (dd ++ ["db"]) with
  | none => rw [hl] at hnm; simp at hnm
  | some node =>
      cases node with
      | file d => rw [hl] at hnm; simp at hnm
      | dir es =>
          rw [hl] at hnm
          simp only [] at hnm
          obtain ⟨hend, hfind⟩ := dNames_mem es nm hnm
          obtain ⟨c, hc⟩ := Option.isSome_iff_exists.mp hfind
          have hsome := lookupAbs_app_single p a (dd ++ ["db"]) es hl nm c hc
          have happ : dd ++ ["db", nm] = (dd ++ ["db"]) ++ [nm] := by simp
          rw [trimSuf_id_of_d hend]
          simp only [statAbs, happ, hsome]
          simp

mutual
/-- When no file in the tree starts with the magic, the `"GVariant"`
content filter changes nothing about the snapshot. -/
theorem tcNode_noGVar (rel nm : String) (t : FsNode) (h : noGVarNode t = true) :
    treeContentNode (some gvariantMagic) rel nm t = treeContentNode none rel nm t := by
  cases t with
  | file d =>
      have hh : hasPre gvariantMagic d = false := by
        simpa [noGVarNode, Bool.not_eq_true'] using h
      simp [treeContentNode, ignoredHeader, hh]
  | dir es =>
      simp only [treeContentNode]
      rw [tcEntries_noGVar rel es (by simpa [noGVarNode] using h)]
/-- Entries version of `tcNode_noGVar`. -/
theorem tcEntries_noGVar (rel : String) (es : Entries) (h : noGVarEntries es = true) :
    treeContentEntries (some gvariantMagic) rel es = treeContentEntries none rel es := by
  cases es with
  | nil => rfl
  | cons nm c rest =>
      have h2 : noGVarNode c = true ∧ noGVarEntries rest = true := by
        simpa [noGVarEntries, Bool.and_eq_true] using h
      simp only [treeContentEntries]
      rw [tcNode_noGVar (rel ++ "/" ++ nm) nm c h2.1, tcEntries_noGVar rel rest h2.2]
end

/-- C2 (amended): for every tree `T` none of whose files starts with the
`"GVariant"` magic, `CompareTrees(T, T, false)` succeeds: the actual
snapshot (built with the content filter) equals the golden snapshot of
the same directory (built without), and the cross-check reports
nothing. -/
theorem c2_amended_identity (p : List String) (T : FsNode) (h : noGVarNode T = true) :
    (compareTreesModel p (p.getLastD "") ⟨some T, some T⟩ false).ok := by
  refine ⟨rfl, ?_, ?_⟩
  · show optSnapEquiv (some (treeContentNode none "" (p.getLastD "") T))
      (some (treeContentNode (some gvariantMagic) "" (p.getLastD "") T))
    rw [show treeContentNode (some gvariantMagic) "" (p.getLastD "") T
        = treeContentNode none "" (p.getLastD "") T from tcNode_noGVar _ _ T h]
    exact fun k => rfl
  · show dbCheckFailures p T (findDconfDir p T) = []
    exact dbCheckFailures_eq_nil p T _

/-- Closed instance of `c2_amended_identity` on a small GVariant-free
tree. -/
theorem c2_amended_identity_witness :
    (noGVarNode (.dir (.cons "f" (.file "hello") .nil)) = true)
      ∧ (compareTreesModel ["p"] (["p"].getLastD "")
          ⟨some (.dir (.cons "f" (.file "hello") .nil)),
            some (.dir (.cons "f" (.file "hello") .nil))⟩ false).ok :=
  ⟨by decide, c2_amended_identity ["p"] _ (by decide)⟩

/-- A named entry's name is among the directory's names. -/
theorem entMem_name (nm : String) (c : FsNode) (es : Entries) (h : entMem nm c es) :
    nm ∈ Entries.names es := by
  cases es with
  | nil => simp [entMem] at h
  | cons nm' c' rest =>
      simp only [entMem] at h
      rcases h with ⟨rfl, -⟩ | h2
      · simp [Entries.names]
      · simp only [Entries.names, List.mem_cons]
        exact Or.inr (entMem_name nm c rest h2)

/-- A name on the ignore list belongs to a file entry whose content
starts with the magic. -/
theorem mem_ignore_entMem (es : Entries) (nm : String) (h : nm ∈ ignoreDconfDB es) :
    ∃ d, entMem nm (.file d) es ∧ hasPre gvariantMagic d = true := by
  cases es with
  | nil => simp [ignoreDconfDB] at h
  | cons nm' c' rest =>
      cases c' with
      | dir ds =>
          obtain ⟨d, hm, hp⟩ := mem_ignore_entMem rest nm h
          exact ⟨d, Or.inr hm, hp⟩
      | file d' =>
          simp only [ignoreDconfDB] at h
          by_cases hp' : hasPre gvariantMagic d' = true
          · rw [if_pos hp'] at h
            rcases List.mem_cons.mp h with rfl | hm
            · exact ⟨d', Or.inl ⟨rfl, rfl⟩, hp'⟩
            · obtain ⟨d, hm2, hp⟩ := mem_ignore_entMem rest nm hm
              exact ⟨d, Or.inr hm2, hp⟩
          · rw [if_neg hp'] at h
            obtain ⟨d, hm2, hp⟩ := mem_ignore_entMem rest nm h
            exact ⟨d, Or.inr hm2, hp⟩

/-- A file entry whose content starts with the magic is on the ignore
list. -/
theorem entMem_bin_mem_ignore (es : Entries) (nm d : String)
    (hm : entMem nm (.file d) es) (hp : hasPre gvariantMagic d = true) :
    nm ∈ ignoreDconfDB es := by
  cases es with
  | nil => simp [entMem] at hm
  | cons nm' c' rest =>
      simp only [entMem] at hm
      rcases hm with ⟨rfl, hc⟩ | hm2
      · cases c' with
        | dir ds => exact FsNode.noConfusion hc
        | file d' =>
            have hd : d = d' := by injection hc
            simp only [ignoreDconfDB]
            rw [if_pos (hd ▸ hp)]
            exact List.mem_cons_self _ _
      · have := entMem_bin_mem_ignore rest nm d hm2 hp
        cases c' with
        | dir ds => exact this
        | file d' =>
            simp only [ignoreDconfDB]
            by_cases hp' : hasPre gvariantMagic d' = true
            · rw [if_pos hp']
              exact List.mem_cons_of_mem _ this
            · rw [if_neg hp']
              exact this

/-- With pairwise-distinct names, an entry is determined by its name. -/
theorem entMem_unique (es : Entries) (hnd : allDiff (Entries.names es) = true)
    (nm : String) (c c' : FsNode) (h : entMem nm c es) (h' : entMem nm c' es) : c = c' := by
  cases es with
  | nil => simp [entMem] at h
  | cons nm₁ c₁ rest =>
      obtain ⟨hna, hdr⟩ := allDiff_cons_iff.mp (by simpa [Entries.names] using hnd)
      simp only [entMem] at h h'
      rcases h with ⟨rfl, rfl⟩ | h2
      · rcases h' with ⟨-, rfl⟩ | h2'
        · rfl
        · exact absurd (entMem_name _ _ _ h2') hna
      · rcases h' with ⟨rfl, rfl⟩ | h2'
        · exact absurd (entMem_name _ _ _ h2) hna
        · exact entMem_unique rest hdr nm c c' h2 h2'

mutual
/-- On a well-formed tree the copy with the name-based ignore list
equals the entry-local copy: names are unique, so a name is ignored
exactly when its own entry is a binary DB file. -/
theorem copyNode_eq_P (t : FsNode) (h : wfNode t = true) : copyNode t = copyNodeP t := by
  cases t with
  | file d => rfl
  | dir es =>
      have hsplit : allDiff (Entries.names es) = true ∧ wfEntries es = true := by
        simpa [wfNode, Bool.and_eq_true] using h
      simp only [copyNode, copyNodeP]
      rw [copyFiltered_eq_P (ignoreDconfDB es) es hsplit.2 ?_]
      intro nm c hm
      constructor
      · intro hin
        obtain ⟨d, hm', hp⟩ := mem_ignore_entMem es nm hin
        rw [entMem_unique es hsplit.1 nm c (.file d) hm hm']
        simpa [isBinEntry] using hp
      · intro hbin
        cases c with
        | dir ds => simp [isBinEntry] at hbin
        | file d =>
            exact entMem_bin_mem_ignore es nm d hm (by simpa [isBinEntry] using hbin)
/-- Entries part of `copyNode_eq_P`, for an arbitrary ignore list that
agrees entrywise with `isBinEntry`. -/
theorem copyFiltered_eq_P (ign : List String) (es : Entries) (hwf : wfEntries es = true)
    (h : ∀ nm c, entMem nm c es → (nm ∈ ign ↔ isBinEntry c = true)) :
    copyFiltered ign es = copyEntriesP es := by
  cases es with
  | nil => rfl
  | cons nm c rest =>
      have h3 : goodName nm = true ∧ wfNode c = true ∧ wfEntries rest = true := by
        simpa [wfEntries, Bool.and_eq_true, and_assoc] using hwf
      have hhead := h nm c (Or.inl ⟨rfl, rfl⟩)
      have htail : ∀ nm' c', entMem nm' c' rest → (nm' ∈ ign ↔ isBinEntry c' = true) :=
        fun nm' c' hm => h nm' c' (Or.inr hm)
      simp only [copyFiltered, copyEntriesP]
      by_cases hb : isBinEntry c = true
      · rw [if_pos (hhead.mpr hb), if_pos hb]
        exact copyFiltered_eq_P ign rest h3.2.2 htail
      · have hni : nm ∉ ign := fun hin => hb (hhead.mp hin)
        rw [if_neg hni, if_neg hb, copyNode_eq_P c h3.2.1,
          copyFiltered_eq_P ign rest h3.2.2 htail]
end

/-- `copyDir` on a well-formed directory is the entry-local copy. -/
theorem copyDir_eq_P (es : Entries) (h : wfNode (.dir es) = true) :
    copyDir es = copyEntriesP es := by
  have h2 := copyNode_eq_P (.dir es) h
  simpa [copyNode, copyNodeP, copyDir] using h2

/-- A binary DB entry contributes nothing to the filtered snapshot. -/
theorem tcNode_bin_nil (rel nm : String) (c : FsNode) (h : isBinEntry c = true) :
    treeContentNode (some gvariantMagic) rel nm c = [] := by
  cases c with
  | dir ds => simp [isBinEntry] at h
  | file d =>
      simp only [treeContentNode]
      by_cases h1 : nm = fileForEmptyDir
      · rw [if_pos h1]
      · rw [if_neg h1, if_pos (show ignoredHeader (some gvariantMagic) d = true by
          simpa [isBinEntry, ignoredHeader] using h)]

/-- Marker insertion below a copied directory does not change its
snapshot: the marker added to an empty directory is itself skipped. -/
theorem tcNode_addEmpty_dir (rel nm : String) (es' : Entries) :
    treeContentNode none rel nm (addEmptyNode (.dir es'))
      = (if nm = fileForEmptyDir then [] else [(rel, "")])
        ++ treeContentEntries none rel (addEmptyEntries es') := by
  cases es' with
  | nil =>
      simp only [addEmptyNode, treeContentNode, treeContentEntries, addEmptyEntries]
      simp [treeContentNode]
  | cons a b r => simp only [addEmptyNode, treeContentNode]

mutual
/-- Round trip at the node level: the unfiltered snapshot of the copied
tree (with markers inserted) equals the filtered snapshot of the
original, for every entry the copy keeps. -/
theorem tcNode_roundtrip (rel nm : String) (c : FsNode) (h : isBinEntry c = false) :
    treeContentNode none rel nm (addEmptyNode (copyNodeP c))
      = treeContentNode (some gvariantMagic) rel nm c := by
  cases c with
  | file d =>
      have hp : hasPre gvariantMagic d = false := by simpa [isBinEntry] using h
      simp only [copyNodeP, addEmptyNode, treeContentNode]
      simp [ignoredHeader, hp]
  | dir ds =>
      simp only [copyNodeP]
      rw [tcNode_addEmpty_dir rel nm (copyEntriesP ds), tcEntries_roundtrip rel ds]
      simp only [treeContentNode]
/-- Round trip at the entries level: dropped entries are exactly those
the filter would have skipped anyway. -/
theorem tcEntries_roundtrip (rel : String) (es : Entries) :
    treeContentEntries none rel (addEmptyEntries (copyEntriesP es))
      = treeContentEntries (some gvariantMagic) rel es := by
  cases es with
  | nil => rfl
  | cons nm c rest =>
      simp only [copyEntriesP]
      by_cases hb : isBinEntry c = true
      · rw [if_pos hb, tcEntries_roundtrip rel rest]
        simp only [treeContentEntries]
        rw [tcNode_bin_nil (rel ++ "/" ++ nm) nm c hb]
        rfl
      · rw [if_neg hb]
        simp only [addEmptyEntries, treeContentEntries]
        rw [tcNode_roundtrip (rel ++ "/" ++ nm) nm c (by simpa using hb),
          tcEntries_roundtrip rel rest]
end

/-- The golden snapshot after a regeneration equals the filtered actual
snapshot, whatever the two root base names (as long as neither is the
marker name). -/
theorem golden_snapshot_eq (pLast goldLast : String) (es : Entries)
    (hwf : wfNode (.dir es) = true) (hp : pLast ≠ fileForEmptyDir)
    (hg : goldLast ≠ fileForEmptyDir) :
    treeContentNode none "" goldLast (addEmptyNode (.dir (copyDir es)))
      = treeContentNode (some gvariantMagic) "" pLast (.dir es) := by
  rw [copyDir_eq_P es hwf, tcNode_addEmpty_dir "" goldLast (copyEntriesP es),
    tcEntries_roundtrip "" es]
  simp only [treeContentNode]
  rw [if_neg hg, if_neg hp]

/-- An update-mode call on an existing well-formed actual directory
succeeds: the freshly regenerated golden snapshot matches the filtered
actual snapshot and the cross-check reports nothing. -/
theorem update_call_ok (p : List String) (goldLast : String) (es : Entries)
    (G : Option FsNode) (hwf : wfNode (.dir es) = true)
    (hp : p.getLastD "" ≠ fileForEmptyDir) (hg : goldLast ≠ fileForEmptyDir) :
    (compareTreesModel p goldLast ⟨some (.dir es), G⟩ true).ok := by
  refine ⟨rfl, ?_, ?_⟩
  · show optSnapEquiv
      (some (treeContentNode none "" goldLast (addEmptyNode (.dir (copyDir es)))))
      (some (treeContentNode (some gvariantMagic) "" (p.getLastD "") (.dir es)))
    rw [golden_snapshot_eq (p.getLastD "") goldLast es hwf hp hg]
    exact fun k => rfl
  · show dbCheckFailures p (.dir es) (findDconfDir p (.dir es)) = []
    exact dbCheckFailures_eq_nil p _ _

/-- A plain comparison against the golden tree left by an update
succeeds. -/
theorem compare_after_update_ok (p : List String) (goldLast : String) (es : Entries)
    (hwf : wfNode (.dir es) = true) (hp : p.getLastD "" ≠ fileForEmptyDir)
    (hg : goldLast ≠ fileForEmptyDir) :
    (compareTreesModel p goldLast
      ⟨some (.dir es), some (addEmptyNode (.dir (copyDir es)))⟩ false).ok := by
  refine ⟨rfl, ?_, ?_⟩
  · show optSnapEquiv
      (some (treeContentNode none "" goldLast (addEmptyNode (.dir (copyDir es)))))
      (some (treeContentNode (some gvariantMagic) "" (p.getLastD "") (.dir es)))
    rw [golden_snapshot_eq (p.getLastD "") goldLast es hwf hp hg]
    exact fun k => rfl
  · show dbCheckFailures p (.dir es) (findDconfDir p (.dir es)) = []
    exact dbCheckFailures_eq_nil p _ _

/-- C3: `CompareTrees(A, G, true)` followed by `CompareTrees(A, G,
false)` (against the golden tree the first call left) succeeds with no
assertion failure, for any actual tree `A` (absent, or a well-formed
directory) and any prior golden state `G`; the root base names are not
the marker name `.empty`. -/
theorem c3_update_then_compare (p : List String) (goldLast : String) (A G : Option FsNode)
    (hA : A = none ∨ ∃ es, A = some (.dir es) ∧ wfNode (.dir es) = true)
    (hp : p.getLastD "" ≠ fileForEmptyDir) (hg : goldLast ≠ fileForEmptyDir) :
    (compareTreesModel p goldLast ⟨A, G⟩ true).ok
      ∧ (compareTreesModel p goldLast
          ⟨A, (compareTreesModel p goldLast ⟨A, G⟩ true).goldenAfter⟩ false).ok := by
  rcases hA with rfl | ⟨es, rfl, hwf⟩
  · exact ⟨⟨rfl, trivial, rfl⟩, ⟨rfl, trivial, rfl⟩⟩
  · exact ⟨update_call_ok p goldLast es G hwf hp hg,
      compare_after_update_ok p goldLast es hwf hp hg⟩

/-- Closed instance of `c3_update_then_compare`: regenerating a golden
tree from an actual tree holding a binary DB next to a regular file and
comparing again succeeds. -/
theorem c3_update_then_compare_witness :
    (some (FsNode.dir wtEntriesC3) = none
        ∨ ∃ es, some (FsNode.dir wtEntriesC3) = some (.dir es) ∧ wfNode (.dir es) = true)
      ∧ (["p"].getLastD "" ≠ fileForEmptyDir) ∧ ("g" ≠ fileForEmptyDir)
      ∧ ((compareTreesModel ["p"] "g" ⟨some (.dir wtEntriesC3), some (.dir .nil)⟩ true).ok
        ∧ (compareTreesModel ["p"] "g"
            ⟨some (.dir wtEntriesC3),
              (compareTreesModel ["p"] "g" ⟨some (.dir wtEntriesC3),
                some (.dir .nil)⟩ true).goldenAfter⟩ false).ok) :=
  ⟨Or.inr ⟨wtEntriesC3, rfl, by decide⟩, by decide, by decide,
    c3_update_then_compare ["p"] "g" (some (.dir wtEntriesC3)) (some (.dir .nil))
      (Or.inr ⟨wtEntriesC3, rfl, by decide⟩) (by decide) (by decide)⟩

/-- Every character of a legal name differs from the separator
(propositional form). -/
theorem goodName_ne_slash {nm : String} (h : goodName nm = true) :
    ∀ c ∈ nm.data, c ≠ '/' := by
  intro c hc
  have h2 := goodName_no_slash h c hc
  simpa using h2

/-- Two slash-free segments followed by empty-or-slash-headed tails can
only concatenate to the same character list when the segments agree. -/
theorem firstSeg_eq (l₁ : List Char) : ∀ (l₂ : List Char) {m₁ m₂ : List Char},
    (∀ c ∈ l₁, c ≠ '/') → (∀ c ∈ l₂, c ≠ '/') →
    (m₁ = [] ∨ ∃ t, m₁ = '/' :: t) → (m₂ = [] ∨ ∃ t, m₂ = '/' :: t) →
    l₁ ++ m₁ = l₂ ++ m₂ → l₁ = l₂ := by
  induction l₁ with
  | nil =>
      intro l₂ m₁ m₂ h₁ h₂ hm₁ hm₂ h
      cases l₂ with
      | nil => rfl
      | cons c₂ t₂ =>
          exfalso
          rcases hm₁ with rfl | ⟨t, rfl⟩
          · simp at h
          · simp only [List.nil_append, List.cons_append, List.cons.injEq] at h
            exact h₂ c₂ (by simp) h.1.symm
  | cons c₁ t₁ ih =>
      intro l₂ m₁ m₂ h₁ h₂ hm₁ hm₂ h
      cases l₂ with
      | nil =>
          exfalso
          rcases hm₂ with rfl | ⟨t, rfl⟩
          · simp at h
          · simp only [List.nil_append, List.cons_append, List.cons.injEq] at h
            exact h₁ c₁ (by simp) h.1
      | cons c₂ t₂ =>
          simp only [List.cons_append, List.cons.injEq] at h
          have h2 := ih t₂ (fun c hc => h₁ c (List.mem_cons_of_mem _ hc))
            (fun c hc => h₂ c (List.mem_cons_of_mem _ hc)) hm₁ hm₂ h.2
          rw [h.1, h2]

/-- The character list of a relative key: empty or slash-headed. -/
theorem joinKey_shape (q : List String) :
    (joinKey q).data = [] ∨ ∃ t, (joinKey q).data = '/' :: t := by
  cases q with
  | nil => exact Or.inl rfl
  | cons c cs => exact Or.inr ⟨c.data ++ (joinKey cs).data, rfl⟩

/-- String append is left-cancellative. -/
theorem str_cancel_left {x y z : String} (h : x ++ y = x ++ z) : y = z := by
  apply String.ext
  have h2 := congrArg String.data h
  simp only [String.data_append] at h2
  exact List.append_cancel_left h2

/-- A key strictly below `rel` differs from `rel`. -/
theorem app_slash_ne (rel s : String) : rel ++ "/" ++ s ≠ rel := by
  intro h
  have h2 := congrArg (fun t => t.data.length) h
  simp only [String.data_append, List.length_append] at h2
  rw [show (("/" : String)).data.length = 1 from rfl] at h2
  omega

/-- A path-shaped key below an entry differs from the directory's own
key. -/
theorem key_ne_rel (rel x y : String) : rel ++ "/" ++ x ++ y ≠ rel := by
  intro h
  have h2 := congrArg (fun t => t.data.length) h
  simp only [String.data_append, List.length_append] at h2
  rw [show (("/" : String)).data.length = 1 from rfl] at h2
  omega

/-- Splitting a snapshot lookup over an append. -/
theorem snapLookup_append (l₁ l₂ : List (String × String)) (k : String) :
    snapLookup (l₁ ++ l₂) k = (snapLookup l₁ k).or (snapLookup l₂ k) := by
  induction l₁ with
  | nil => rfl
  | cons kv rest ih =>
      obtain ⟨k', v⟩ := kv
      simp only [List.cons_append, snapLookup]
      by_cases hk : k' = k
      · rw [if_pos hk, if_pos hk]
        rfl
      · rw [if_neg hk, if_neg hk]
        exact ih

/-- A snapshot lookup misses exactly when the key is absent. -/
theorem snapLookup_eq_none (l : List (String × String)) (k : String) :
    snapLookup l k = none ↔ k ∉ snapKeys l := by
  induction l with
  | nil => simp [snapLookup, snapKeys]
  | cons kv rest ih =>
      obtain ⟨k', v⟩ := kv
      simp only [snapLookup, snapKeys, List.map_cons, List.mem_cons]
      by_cases hk : k' = k
      · rw [if_pos hk]
        simp [hk]
      · rw [if_neg hk, ih]
        have hk2 : ¬(k = k') := fun hKk => hk hKk.symm
        simp [snapKeys, hk2]

mutual
/-- Every key produced under a node walked at `rel` is `rel` itself or
lies strictly below it. -/
theorem keysUnderNode (ign : Option String) (rel nm : String) (t : FsNode) :
    ∀ k ∈ snapKeys (treeContentNode ign rel nm t),
      k = rel ∨ ∃ s, k = rel ++ "/" ++ s := by
  cases t with
  | file d =>
      intro k hk
      left
      simp only [treeContentNode] at hk
      split at hk
      · simp [snapKeys] at hk
      · split at hk
        · simp [snapKeys] at hk
        · simp only [snapKeys, List.map_cons, List.map_nil, List.mem_singleton] at hk
          exact hk
  | dir es =>
      intro k hk
      simp only [treeContentNode, snapKeys, List.map_append, List.mem_append] at hk
      rcases hk with hk | hk
      · left
        split at hk
        · simp at hk
        · simpa using hk
      · exact Or.inr (keysUnderEntries ign rel es k hk)
/-- Every key produced below a directory walked at `rel` lies strictly
below `rel`. -/
theorem keysUnderEntries (ign : Option String) (rel : String) (es : Entries) :
    ∀ k ∈ snapKeys (treeContentEntries ign rel es), ∃ s, k = rel ++ "/" ++ s := by
  cases es with
  | nil =>
      intro k hk
      simp [treeContentEntries, snapKeys] at hk
  | cons nm c rest =>
      intro k hk
      simp only [treeContentEntries, snapKeys, List.map_append, List.mem_append] at hk
      rcases hk with hk | hk
      · rcases keysUnderNode ign (rel ++ "/" ++ nm) nm c k hk with rfl | ⟨s, rfl⟩
        · exact ⟨nm, rfl⟩
        · exact ⟨nm ++ "/" ++ s, by simp [String.append_assoc]⟩
      · exact keysUnderEntries ign rel rest k hk
end

/-- The snapshot block of an entry named `nm₁` holds no key whose first
path segment below `rel` is a different name `a`. -/
theorem snapLookup_other_block (ign : Option String) (rel nm₁ a : String) (c : FsNode)
    (q' : List String) (ha : goodName a = true) (hn : goodName nm₁ = true)
    (hne : nm₁ ≠ a) :
    snapLookup (treeContentNode ign (rel ++ "/" ++ nm₁) nm₁ c)
      (rel ++ "/" ++ a ++ joinKey q') = none := by
  rw [snapLookup_eq_none]
  intro hk
  rcases keysUnderNode ign (rel ++ "/" ++ nm₁) nm₁ c _ hk with hEq | ⟨s, hEq⟩
  · have h2 := hEq
    rw [String.append_assoc (rel ++ "/") a (joinKey q')] at h2
    have h3 := congrArg String.data (str_cancel_left h2)
    simp only [String.data_append] at h3
    refine hne (String.ext ?_).symm
    exact firstSeg_eq a.data nm₁.data (goodName_ne_slash ha) (goodName_ne_slash hn)
      (joinKey_shape q') (Or.inl rfl) (h3.trans (List.append_nil _).symm)
  · have h2 := hEq
    rw [String.append_assoc (rel ++ "/") a (joinKey q'),
      String.append_assoc (rel ++ "/" ++ nm₁) "/" s,
      String.append_assoc (rel ++ "/") nm₁ ("/" ++ s)] at h2
    have h3 := congrArg String.data (str_cancel_left h2)
    simp only [String.data_append] at h3
    refine hne (String.ext ?_).symm
    exact firstSeg_eq a.data nm₁.data (goodName_ne_slash ha) (goodName_ne_slash hn)
      (joinKey_shape q') (Or.inr ⟨s.data, rfl⟩) h3

/-- No block of a directory whose entry names avoid `a` holds a key
whose first segment below `rel` is `a`. -/
theorem snapLookup_entries_no_name (ign : Option String) (rel a : String)
    (q' : List String) (es : Entries) (ha : goodName a = true)
    (hwf : wfEntries es = true) (hnm : a ∉ Entries.names es) :
    snapLookup (treeContentEntries ign rel es) (rel ++ "/" ++ a ++ joinKey q') = none := by
  cases es with
  | nil => rfl
  | cons nm₁ c rest =>
      have h3 : goodName nm₁ = true ∧ wfNode c = true ∧ wfEntries rest = true := by
        simpa [wfEntries, Bool.and_eq_true, and_assoc] using hwf
      simp only [Entries.names, List.mem_cons, not_or] at hnm
      have hne : nm₁ ≠ a := fun hEq => hnm.1 hEq.symm
      simp only [treeContentEntries, snapLookup_append]
      rw [snapLookup_other_block ign rel nm₁ a c q' ha h3.1 hne, Option.none_or]
      exact snapLookup_entries_no_name ign rel a q' rest ha h3.2.2 hnm.2

/-- Unfold one component of a relative key. -/
theorem joinKey_cons_str (rel a : String) (q' : List String) :
    rel ++ joinKey (a :: q') = rel ++ "/" ++ a ++ joinKey q' := by
  simp [joinKey, String.append_assoc]

/-- `lookupPath` through a directory as a bind. -/
theorem lookupPath_dir (es : Entries) (a : String) (q' : List String) :
    lookupPath (.dir es) (a :: q')
      = (Entries.findEntry es a).bind (fun child => lookupPath child q') := by
  simp only [lookupPath]
  cases Entries.findEntry es a <;> rfl

/-- The node found by `findEntry` in a well-formed directory is
well-formed and its name is legal. -/
theorem wf_of_found (es : Entries) (hwf : wfEntries es = true) (a : String) (c : FsNode)
    (h : Entries.findEntry es a = some c) : wfNode c = true ∧ goodName a = true := by
  cases es with
  | nil => simp [Entries.findEntry] at h
  | cons nm c₁ rest =>
      have h3 : goodName nm = true ∧ wfNode c₁ = true ∧ wfEntries rest = true := by
        simpa [wfEntries, Bool.and_eq_true, and_assoc] using hwf
      simp only [Entries.findEntry] at h
      by_cases hn : nm = a
      · rw [if_pos hn] at h
        obtain rfl := Option.some.inj h
        exact ⟨h3.2.1, hn ▸ h3.1⟩
      · rw [if_neg hn] at h
        exact wf_of_found rest h3.2.2 a c h

/-- A path that resolves in a well-formed tree has legal components. -/
theorem wfComps_of_lookup (t : FsNode) (q : List String) (hwf : wfNode t = true)
    (n : FsNode) (h : lookupPath t q = some n) : wfComps q = true := by
  induction q generalizing t with
  | nil => rfl
  | cons a q' ih =>
      cases t with
      | file d => simp [lookupPath] at h
      | dir es =>
          have hsplit : allDiff (Entries.names es) = true ∧ wfEntries es = true := by
            simpa [wfNode, Bool.and_eq_true] using hwf
          simp only [lookupPath] at h
          cases hfe : Entries.findEntry es a with
          | none => rw [hfe] at h; exact Option.noConfusion h
          | some child =>
              rw [hfe] at h
              obtain ⟨hwc, hga⟩ := wf_of_found es hsplit.2 a child hfe
              have hq' := ih child hwc h
              simp [wfComps, hga]
              simpa [wfComps] using hq'

mutual
/-- Characterisation of a snapshot lookup at a path-shaped key: the
resolved entry's contribution (nothing for a marker name or a filtered
file, the content otherwise), and a miss for an unresolvable path. -/
theorem snapLookup_tc (ign : Option String) (rel nm : String) (t : FsNode)
    (q : List String) (hwf : wfNode t = true) (hq : wfComps q = true) :
    snapLookup (treeContentNode ign rel nm t) (rel ++ joinKey q)
      = (lookupPath t q).bind (entryKeyVal ign (q.getLastD nm)) := by
  cases q with
  | nil =>
      rw [show rel ++ joinKey [] = rel from by simp [joinKey]]
      have hrhs : (lookupPath t []).bind (entryKeyVal ign (List.getLastD [] nm))
          = entryKeyVal ign nm t := by cases t <;> rfl
      rw [hrhs]
      cases t with
      | file d =>
          simp only [treeContentNode, entryKeyVal]
          by_cases h1 : nm = fileForEmptyDir
          · rw [if_pos h1, if_pos h1]
            rfl
          · rw [if_neg h1, if_neg h1]
            by_cases h2 : ignoredHeader ign d = true
            · rw [if_pos h2, if_pos h2]
              rfl
            · rw [if_neg h2, if_neg h2]
              simp [snapLookup]
      | dir es =>
          simp only [treeContentNode, entryKeyVal]
          by_cases h1 : nm = fileForEmptyDir
          · rw [if_pos h1, if_pos h1, List.nil_append, snapLookup_eq_none]
            intro hk
            obtain ⟨s, hEq⟩ := keysUnderEntries ign rel es rel hk
            exact app_slash_ne rel s hEq.symm
          · rw [if_neg h1, if_neg h1]
            simp [snapLookup]
  | cons a q' =>
      have hqa : goodName a = true ∧ wfComps q' = true := by
        simpa [wfComps, Bool.and_eq_true] using hq
      rw [joinKey_cons_str rel a q']
      cases t with
      | file d =>
          simp only [treeContentNode]
          have hkey : ∀ v, snapLookup [(rel, v)] (rel ++ "/" ++ a ++ joinKey q') = none := by
            intro v
            simp only [snapLookup]
            rw [if_neg (fun hc => key_ne_rel rel a (joinKey q') hc.symm)]
          by_cases h1 : nm = fileForEmptyDir
          · rw [if_pos h1]
            rfl
          · rw [if_neg h1]
            by_cases h2 : ignoredHeader ign d = true
            · rw [if_pos h2]
              rfl
            · rw [if_neg h2, hkey d]
              rfl
      | dir es =>
          have hsplit : allDiff (Entries.names es) = true ∧ wfEntries es = true := by
            simpa [wfNode, Bool.and_eq_true] using hwf
          simp only [treeContentNode, snapLookup_append]
          have hKopt : snapLookup (if nm = fileForEmptyDir then [] else [(rel, "")])
              (rel ++ "/" ++ a ++ joinKey q') = none := by
            by_cases h1 : nm = fileForEmptyDir
            · rw [if_pos h1]
              rfl
            · rw [if_neg h1]
              simp only [snapLookup]
              rw [if_neg (fun hc => key_ne_rel rel a (joinKey q') hc.symm)]
          rw [hKopt, Option.none_or,
            snapLookup_tcEntries ign rel es a q' hsplit.1 hsplit.2 hqa.1 hqa.2,
            lookupPath_dir es a q', Option.bind_assoc]
          rw [List.getLastD_cons]
termination_by (q.length, sizeOf t)
decreasing_by
  all_goals subst_vars
  all_goals decreasing_tactic
/-- Entries version of `snapLookup_tc`: the lookup dispatches to the
(unique) entry named like the key's first segment. -/
theorem snapLookup_tcEntries (ign : Option String) (rel : String) (es : Entries)
    (a : String) (q' : List String) (hnd : allDiff (Entries.names es) = true)
    (hwf : wfEntries es = true) (ha : goodName a = true) (hq' : wfComps q' = true) :
    snapLookup (treeContentEntries ign rel es) (rel ++ "/" ++ a ++ joinKey q')
      = (Entries.findEntry es a).bind
          (fun child => (lookupPath child q').bind (entryKeyVal ign (q'.getLastD a))) := by
  cases es with
  | nil => rfl
  | cons nm₁ c rest =>
      have h3 : goodName nm₁ = true ∧ wfNode c = true ∧ wfEntries rest = true := by
        simpa [wfEntries, Bool.and_eq_true, and_assoc] using hwf
      obtain ⟨hna, hndr⟩ := allDiff_cons_iff.mp (by simpa [Entries.names] using hnd)
      simp only [treeContentEntries, snapLookup_append, Entries.findEntry]
      by_cases hEq : nm₁ = a
      · subst hEq
        rw [if_pos rfl, Option.some_bind]
        have hb := snapLookup_tc ign (rel ++ "/" ++ nm₁) nm₁ c q' h3.2.1 hq'
        rw [hb]
        cases hres : (lookupPath c q').bind (entryKeyVal ign (q'.getLastD nm₁)) with
        | some v => rw [Option.or_some]
        | none =>
            rw [Option.none_or]
            exact snapLookup_entries_no_name ign rel nm₁ q' rest ha h3.2.2 hna
      · rw [if_neg hEq,
          snapLookup_other_block ign rel nm₁ a c q' ha h3.1 hEq, Option.none_or]
        exact snapLookup_tcEntries ign rel rest a q' hndr h3.2.2 ha hq'
termination_by (q'.length + 1, sizeOf es)
decreasing_by
  all_goals subst_vars
  all_goals decreasing_tactic
end

/-- `findEntry` misses when the name is absent. -/
theorem findEntry_none_of_not_mem (es : Entries) (a : String)
    (h : a ∉ Entries.names es) : Entries.findEntry es a = none := by
  cases es with
  | nil => rfl
  | cons nm c rest =>
      simp only [Entries.names, List.mem_cons, not_or] at h
      simp only [Entries.findEntry]
      rw [if_neg (fun hEq => h.1 hEq.symm)]
      exact findEntry_none_of_not_mem rest a h.2

/-- The entry-local copy introduces no new names. -/
theorem names_copyP_sub (es : Entries) (a : String)
    (h : a ∈ Entries.names (copyEntriesP es)) : a ∈ Entries.names es := by
  cases es with
  | nil => simpa [copyEntriesP] using h
  | cons nm c rest =>
      simp only [copyEntriesP] at h
      simp only [Entries.names, List.mem_cons]
      by_cases hb : isBinEntry c = true
      · rw [if_pos hb] at h
        exact Or.inr (names_copyP_sub rest a h)
      · rw [if_neg hb] at h
        simp only [Entries.names, List.mem_cons] at h
        rcases h with rfl | h2
        · exact Or.inl rfl
        · exact Or.inr (names_copyP_sub rest a h2)

/-- A binary DB entry disappears from the copied directory. -/
theorem findEntry_copyP_none (es : Entries) (a : String) (c : FsNode)
    (hnd : allDiff (Entries.names es) = true) (hf : Entries.findEntry es a = some c)
    (hbin : isBinEntry c = true) : Entries.findEntry (copyEntriesP es) a = none := by
  cases es with
  | nil => simp [Entries.findEntry] at hf
  | cons nm c₁ rest =>
      obtain ⟨hna, hndr⟩ := allDiff_cons_iff.mp (by simpa [Entries.names] using hnd)
      simp only [Entries.findEntry] at hf
      simp only [copyEntriesP]
      by_cases hEq : nm = a
      · rw [if_pos hEq] at hf
        obtain rfl := Option.some.inj hf
        rw [if_pos hbin]
        apply findEntry_none_of_not_mem
        intro hmem
        apply hna
        rw [hEq]
        exact names_copyP_sub rest a hmem
      · rw [if_neg hEq] at hf
        by_cases hb : isBinEntry c₁ = true
        · rw [if_pos hb]
          exact findEntry_copyP_none rest a c hndr hf hbin
        · rw [if_neg hb]
          simp only [Entries.findEntry]
          rw [if_neg hEq]
          exact findEntry_copyP_none rest a c hndr hf hbin

/-- A non-binary entry survives the copy, with its subtree copied. -/
theorem findEntry_copyP_some (es : Entries) (a : String) (c : FsNode)
    (hnd : allDiff (Entries.names es) = true) (hf : Entries.findEntry es a = some c)
    (hbin : isBinEntry c = false) :
    Entries.findEntry (copyEntriesP es) a = some (copyNodeP c) := by
  cases es with
  | nil => simp [Entries.findEntry] at hf
  | cons nm c₁ rest =>
      obtain ⟨hna, hndr⟩ := allDiff_cons_iff.mp (by simpa [Entries.names] using hnd)
      simp only [Entries.findEntry] at hf
      simp only [copyEntriesP]
      by_cases hEq : nm = a
      · rw [if_pos hEq] at hf
        obtain rfl := Option.some.inj hf
        rw [if_neg (by simp [hbin])]
        simp only [Entries.findEntry]
        rw [if_pos hEq]
      · rw [if_neg hEq] at hf
        by_cases hb : isBinEntry c₁ = true
        · rw [if_pos hb]
          exact findEntry_copyP_some rest a c hndr hf hbin
        · rw [if_neg hb]
          simp only [Entries.findEntry]
          rw [if_neg hEq]
          exact findEntry_copyP_some rest a c hndr hf hbin

/-- Directory paths survive the copy, their entries copied. -/
theorem lookup_copyP_dir (q : List String) : ∀ (t : FsNode) (ds : Entries),
    wfNode t = true → lookupPath t q = some (.dir ds) →
    lookupPath (copyNodeP t) q = some (.dir (copyEntriesP ds)) := by
  induction q with
  | nil =>
      intro t ds hwf h
      cases t with
      | file d => simp [lookupPath] at h
      | dir es =>
          have h2 := Option.some.inj h
          have h3 : es = ds := by injection h2
          subst h3
          rfl
  | cons a q' ih =>
      intro t ds hwf h
      cases t with
      | file d => simp [lookupPath] at h
      | dir es =>
          have hsplit : allDiff (Entries.names es) = true ∧ wfEntries es = true := by
            simpa [wfNode, Bool.and_eq_true] using hwf
          simp only [lookupPath] at h
          cases hfe : Entries.findEntry es a with
          | none => rw [hfe] at h; exact Option.noConfusion h
          | some child =>
              rw [hfe] at h
              cases child with
              | file d' =>
                  exfalso
                  cases q' with
                  | nil => simp [lookupPath] at h
                  | cons b q'' => simp [lookupPath] at h
              | dir es' =>
                  show lookupPath (.dir (copyEntriesP es)) (a :: q') = _
                  simp only [lookupPath]
                  rw [findEntry_copyP_some es a (.dir es') hsplit.1 hfe rfl]
                  exact ih (.dir es') ds ((wf_of_found es hsplit.2 a _ hfe).1) h

/-- A binary DB file's path does not resolve in the copied tree. -/
theorem lookup_copyP_none (q' : List String) : ∀ (t : FsNode) (a d : String),
    wfNode t = true → lookupPath t (a :: q') = some (.file d) →
    hasPre gvariantMagic d = true → lookupPath (copyNodeP t) (a :: q') = none := by
  induction q' with
  | nil =>
      intro t a d hwf h hpre
      cases t with
      | file d₀ => simp [lookupPath] at h
      | dir es =>
          have hsplit : allDiff (Entries.names es) = true ∧ wfEntries es = true := by
            simpa [wfNode, Bool.and_eq_true] using hwf
          simp only [lookupPath] at h
          cases hfe : Entries.findEntry es a with
          | none => rw [hfe] at h; exact Option.noConfusion h
          | some child =>
              rw [hfe] at h
              cases child with
              | dir es' => simp [lookupPath] at h
              | file dd =>
                  have hdd : dd = d := by simpa [lookupPath] using h
                  subst hdd
                  show lookupPath (.dir (copyEntriesP es)) [a] = none
                  simp only [lookupPath]
                  rw [findEntry_copyP_none es a (.file dd) hsplit.1 hfe
                    (by simpa [isBinEntry] using hpre)]
  | cons b q'' ih =>
      intro t a d hwf h hpre
      cases t with
      | file d₀ => simp [lookupPath] at h
      | dir es =>
          have hsplit : allDiff (Entries.names es) = true ∧ wfEntries es = true := by
            simpa [wfNode, Bool.and_eq_true] using hwf
          simp only [lookupPath] at h
          cases hfe : Entries.findEntry es a with
          | none => rw [hfe] at h; exact Option.noConfusion h
          | some child =>
              rw [hfe] at h
              cases child with
              | file dd => simp [lookupPath] at h
              | dir es' =>
                  show lookupPath (.dir (copyEntriesP es)) (a :: b :: q'') = none
                  simp only [lookupPath]
                  rw [findEntry_copyP_some es a (.dir es') hsplit.1 hfe rfl]
                  exact ih (.dir es') b d ((wf_of_found es hsplit.2 a _ hfe).1) h hpre

/-- `addEmptyMarker` renames nothing: lookup inside the marked entries
is the marked lookup. -/
theorem findEntry_addEmpty (es : Entries) (a : String) :
    Entries.findEntry (addEmptyEntries es) a
      = (Entries.findEntry es a).map addEmptyNode := by
  cases es with
  | nil => rfl
  | cons nm c rest =>
      simp only [addEmptyEntries, Entries.findEntry]
      by_cases h : nm = a
      · rw [if_pos h, if_pos h]
        rfl
      · rw [if_neg h, if_neg h]
        exact findEntry_addEmpty rest a

/-- The default of `getLastD` is irrelevant on non-empty lists. -/
theorem getLastD_irrel {α : Type _} (l : List α) (h : l ≠ []) (d₁ d₂ : α) :
    l.getLastD d₁ = l.getLastD d₂ := by
  cases l with
  | nil => exact absurd rfl h
  | cons a l' => rw [List.getLastD_cons, List.getLastD_cons]

/-- Marker insertion cannot make a missing path appear, unless the path
names the marker itself. -/
theorem lookup_addEmpty_none (q : List String) : ∀ (t : FsNode),
    lookupPath t q = none → q.getLastD "" ≠ fileForEmptyDir →
    lookupPath (addEmptyNode t) q = none := by
  cases q with
  | nil =>
      intro t h _
      cases t <;> simp [lookupPath] at h
  | cons a q' =>
      intro t h hl
      cases t with
      | file d => rfl
      | dir es =>
          cases es with
          | nil =>
              simp only [addEmptyNode, lookupPath, Entries.findEntry]
              by_cases hEq : fileForEmptyDir = a
              · rw [if_pos hEq]
                cases q' with
                | nil =>
                    exfalso
                    apply hl
                    rw [List.getLastD_cons, List.getLastD_nil]
                    exact hEq.symm
                | cons b q'' => rfl
              · rw [if_neg hEq]
          | cons nm c rest =>
              simp only [lookupPath] at h
              simp only [addEmptyNode, lookupPath]
              rw [findEntry_addEmpty]
              cases hfe : Entries.findEntry (.cons nm c rest) a with
              | none => rfl
              | some child =>
                  rw [hfe] at h
                  simp only [Option.map_some']
                  have hq' : q' ≠ [] := by
                    intro hq0
                    subst hq0
                    cases child <;> simp [lookupPath] at h
                  have hl' : q'.getLastD "" ≠ fileForEmptyDir := by
                    rw [getLastD_irrel q' hq' "" a, ← List.getLastD_cons]
                    exact hl
                  exact lookup_addEmpty_none q' child h hl'

/-- Marker insertion turns an (existing) empty directory into the
directory holding exactly the marker file. -/
theorem lookup_addEmpty_marker (q : List String) : ∀ (t : FsNode),
    lookupPath t q = some (.dir .nil) →
    lookupPath (addEmptyNode t) q
      = some (.dir (.cons fileForEmptyDir (.file "") .nil)) := by
  cases q with
  | nil =>
      intro t h
      cases t with
      | file d => simp [lookupPath] at h
      | dir es =>
          have h2 := Option.some.inj h
          have h3 : es = Entries.nil := by injection h2
          subst h3
          rfl
  | cons a q' =>
      intro t h
      cases t with
      | file d => simp [lookupPath] at h
      | dir es =>
          cases es with
          | nil => simp [lookupPath, Entries.findEntry] at h
          | cons nm c rest =>
              simp only [lookupPath] at h
              simp only [addEmptyNode, lookupPath]
              rw [findEntry_addEmpty]
              cases hfe : Entries.findEntry (.cons nm c rest) a with
              | none => rw [hfe] at h; exact Option.noConfusion h
              | some child =>
                  rw [hfe] at h
                  simp only [Option.map_some']
                  exact lookup_addEmpty_marker q' child h

/-- A key whose last segment is the marker name misses any snapshot of
a well-formed directory. -/
theorem snapLookup_marker_key_none (ign : Option String) (pl : String) (es : Entries)
    (q : List String) (hwf : wfNode (.dir es) = true)
    (hqc : wfComps (q ++ [fileForEmptyDir]) = true) :
    snapLookup (treeContentNode ign "" pl (.dir es))
      (joinKey (q ++ [fileForEmptyDir])) = none := by
  rw [show joinKey (q ++ [fileForEmptyDir]) = "" ++ joinKey (q ++ [fileForEmptyDir])
      from (String.empty_append _).symm,
    snapLookup_tc ign "" pl (.dir es) _ hwf hqc, List.getLastD_concat]
  cases hres : lookupPath (.dir es) (q ++ [fileForEmptyDir]) with
  | none => rfl
  | some n => cases n <;> simp [entryKeyVal]

/-- The filtered snapshot of the actual tree has no entry at a binary
DB file's key. -/
theorem snapLookup_got_gvar_none (pl : String) (es : Entries) (q : List String)
    (d : String) (hwf : wfNode (.dir es) = true)
    (hq : lookupPath (.dir es) q = some (.file d))
    (hpre : hasPre gvariantMagic d = true) :
    snapLookup (treeContentNode (some gvariantMagic) "" pl (.dir es)) (joinKey q)
      = none := by
  have hqc := wfComps_of_lookup (.dir es) q hwf _ hq
  rw [show joinKey q = "" ++ joinKey q from (String.empty_append _).symm,
    snapLookup_tc (some gvariantMagic) "" pl (.dir es) q hwf hqc, hq]
  simp [entryKeyVal, ignoredHeader, hpre]

/-- C9: an empty directory of the actual tree yields, after an
update-mode call, a golden directory at the same relative path holding
exactly the marker file `.empty`, and that marker contributes no entry
to either comparison snapshot. -/
theorem c9_empty_dir_gets_marker (p : List String) (goldLast : String) (es : Entries)
    (G : Option FsNode) (q : List String)
    (hwf : wfNode (.dir es) = true)
    (hq : lookupPath (.dir es) q = some (.dir .nil))
    (hp : p.getLastD "" ≠ fileForEmptyDir) (hg : goldLast ≠ fileForEmptyDir) :
    (∀ g, (compareTreesModel p goldLast ⟨some (.dir es), G⟩ true).goldenAfter = some g →
        lookupPath g q = some (.dir (.cons fileForEmptyDir (.file "") .nil)))
      ∧ (∀ s, (compareTreesModel p goldLast ⟨some (.dir es), G⟩ true).got = some s →
          snapLookup s (joinKey (q ++ [fileForEmptyDir])) = none)
      ∧ (∀ s, (compareTreesModel p goldLast ⟨some (.dir es), G⟩ true).gold = some s →
          snapLookup s (joinKey (q ++ [fileForEmptyDir])) = none) := by
  have hqc : wfComps (q ++ [fileForEmptyDir]) = true := by
    have hq1 := wfComps_of_lookup (.dir es) q hwf _ hq
    simp only [wfComps, List.all_append, Bool.and_eq_true] at hq1 ⊢
    exact ⟨hq1, by decide⟩
  refine ⟨?_, ?_, ?_⟩
  · intro g hgEq
    have hgdef : (compareTreesModel p goldLast ⟨some (.dir es), G⟩ true).goldenAfter
        = some (addEmptyNode (.dir (copyDir es))) := rfl
    rw [hgdef] at hgEq
    obtain rfl := Option.some.inj hgEq
    rw [copyDir_eq_P es hwf]
    have h1 : lookupPath (.dir (copyEntriesP es)) q = some (.dir .nil) :=
      lookup_copyP_dir q (.dir es) .nil hwf hq
    exact lookup_addEmpty_marker q (.dir (copyEntriesP es)) h1
  · intro s hsEq
    have hsdef : (compareTreesModel p goldLast ⟨some (.dir es), G⟩ true).got
        = some (treeContentNode (some gvariantMagic) "" (p.getLastD "") (.dir es)) := rfl
    rw [hsdef] at hsEq
    obtain rfl := Option.some.inj hsEq
    exact snapLookup_marker_key_none (some gvariantMagic) (p.getLastD "") es q hwf hqc
  · intro s hsEq
    have hsdef : (compareTreesModel p goldLast ⟨some (.dir es), G⟩ true).gold
        = some (treeContentNode none "" goldLast (addEmptyNode (.dir (copyDir es)))) := rfl
    rw [hsdef] at hsEq
    obtain rfl := Option.some.inj hsEq
    rw [golden_snapshot_eq (p.getLastD "") goldLast es hwf hp hg]
    exact snapLookup_marker_key_none (some gvariantMagic) (p.getLastD "") es q hwf hqc

/-- Closed instance of `c9_empty_dir_gets_marker` on a tree whose only
entry is an empty directory `sub`. -/
theorem c9_empty_dir_gets_marker_witness :
    (wfNode (.dir (.cons "sub" (.dir .nil) .nil)) = true)
      ∧ (lookupPath (.dir (.cons "sub" (.dir .nil) .nil)) ["sub"] = some (.dir .nil))
      ∧ (["p"].getLastD "" ≠ fileForEmptyDir) ∧ ("g" ≠ fileForEmptyDir)
      ∧ ((∀ g, (compareTreesModel ["p"] "g"
            ⟨some (.dir (.cons "sub" (.dir .nil) .nil)), none⟩ true).goldenAfter = some g →
          lookupPath g ["sub"] = some (.dir (.cons fileForEmptyDir (.file "") .nil)))
        ∧ (∀ s, (compareTreesModel ["p"] "g"
            ⟨some (.dir (.cons "sub" (.dir .nil) .nil)), none⟩ true).got = some s →
          snapLookup s (joinKey (["sub"] ++ [fileForEmptyDir])) = none)
        ∧ (∀ s, (compareTreesModel ["p"] "g"
            ⟨some (.dir (.cons "sub" (.dir .nil) .nil)), none⟩ true).gold = some s →
          snapLookup s (joinKey (["sub"] ++ [fileForEmptyDir])) = none)) :=
  ⟨by decide, rfl, by decide, by decide,
    c9_empty_dir_gets_marker ["p"] "g" (.cons "sub" (.dir .nil) .nil) none ["sub"]
      (by decide) rfl (by decide) (by decide)⟩

/-- C5: a file of the actual tree whose content starts with `GVariant`
is (a) excluded from the regenerated golden tree, (b) keyed nowhere in
the actual comparison snapshot, (c) keyed nowhere in the golden
comparison snapshot, and the update call still succeeds. (The file is
not named `.empty`, and the root base names are not the marker name.) -/
theorem c5_gvariant_file_excluded (p : List String) (goldLast : String) (es : Entries)
    (G : Option FsNode) (q : List String) (d : String)
    (hwf : wfNode (.dir es) = true)
    (hq : lookupPath (.dir es) q = some (.file d))
    (hpre : hasPre gvariantMagic d = true)
    (hlast : q.getLastD "" ≠ fileForEmptyDir)
    (hp : p.getLastD "" ≠ fileForEmptyDir) (hg : goldLast ≠ fileForEmptyDir) :
    (∀ g, (compareTreesModel p goldLast ⟨some (.dir es), G⟩ true).goldenAfter = some g →
        lookupPath g q = none)
      ∧ (∀ s, (compareTreesModel p goldLast ⟨some (.dir es), G⟩ true).got = some s →
          snapLookup s (joinKey q) = none)
      ∧ (∀ s, (compareTreesModel p goldLast ⟨some (.dir es), G⟩ true).gold = some s →
          snapLookup s (joinKey q) = none)
      ∧ (compareTreesModel p goldLast ⟨some (.dir es), G⟩ true).ok := by
  refine ⟨?_, ?_, ?_, update_call_ok p goldLast es G hwf hp hg⟩
  · intro g hgEq
    have hgdef : (compareTreesModel p goldLast ⟨some (.dir es), G⟩ true).goldenAfter
        = some (addEmptyNode (.dir (copyDir es))) := rfl
    rw [hgdef] at hgEq
    obtain rfl := Option.some.inj hgEq
    rw [copyDir_eq_P es hwf]
    cases q with
    | nil => simp [lookupPath] at hq
    | cons a q' =>
        have h1 : lookupPath (.dir (copyEntriesP es)) (a :: q') = none :=
          lookup_copyP_none q' (.dir es) a d hwf hq hpre
        exact lookup_addEmpty_none (a :: q') (.dir (copyEntriesP es)) h1 hlast
  · intro s hsEq
    have hsdef : (compareTreesModel p goldLast ⟨some (.dir es), G⟩ true).got
        = some (treeContentNode (some gvariantMagic) "" (p.getLastD "") (.dir es)) := rfl
    rw [hsdef] at hsEq
    obtain rfl := Option.some.inj hsEq
    exact snapLookup_got_gvar_none (p.getLastD "") es q d hwf hq hpre
  · intro s hsEq
    have hsdef : (compareTreesModel p goldLast ⟨some (.dir es), G⟩ true).gold
        = some (treeContentNode none "" goldLast (addEmptyNode (.dir (copyDir es)))) := rfl
    rw [hsdef] at hsEq
    obtain rfl := Option.some.inj hsEq
    rw [golden_snapshot_eq (p.getLastD "") goldLast es hwf hp hg]
    exact snapLookup_got_gvar_none (p.getLastD "") es q d hwf hq hpre

/-- Closed instance of `c5_gvariant_file_excluded` on a tree holding a
binary DB file `bin` next to a regular file `f`. -/
theorem c5_gvariant_file_excluded_witness :
    (wfNode (.dir wtEntriesC3) = true)
      ∧ (lookupPath (.dir wtEntriesC3) ["bin"] = some (.file "GVariantzz"))
      ∧ (hasPre gvariantMagic "GVariantzz" = true)
      ∧ (["bin"].getLastD "" ≠ fileForEmptyDir)
      ∧ (["p"].getLastD "" ≠ fileForEmptyDir) ∧ ("g" ≠ fileForEmptyDir)
      ∧ ((∀ g, (compareTreesModel ["p"] "g" ⟨some (.dir wtEntriesC3), none⟩
            true).goldenAfter = some g → lookupPath g ["bin"] = none)
        ∧ (∀ s, (compareTreesModel ["p"] "g" ⟨some (.dir wtEntriesC3), none⟩
            true).got = some s → snapLookup s (joinKey ["bin"]) = none)
        ∧ (∀ s, (compareTreesModel ["p"] "g" ⟨some (.dir wtEntriesC3), none⟩
            true).gold = some s → snapLookup s (joinKey ["bin"]) = none)
        ∧ (compareTreesModel ["p"] "g" ⟨some (.dir wtEntriesC3), none⟩ true).ok) :=
  ⟨by decide, rfl, by decide, by decide, by decide, by decide,
    c5_gvariant_file_excluded ["p"] "g" wtEntriesC3 none ["bin"] "GVariantzz"
      (by decide) rfl (by decide) (by decide) (by decide) (by decide)⟩

end AdsysFiles
